import Mathlib

/-!
Verification of the loss functions in `ultralytics/yolo/utils/loss.py`
(normalized Gaussian Wasserstein loss, Varifocal loss, BboxLoss with its
CIoU term and Distribution Focal Loss term).

Tensors are modelled as functions `Fin n → Fin 4 → ℝ` (rows of boxes in
`(cx, cy, w, h)` or corner format), `Fin n → Fin c → ℝ` (per-anchor class
scores), and so on; torch reductions become `Finset` sums.  The functions
`bbox_iou` and `bbox2dist` are imported by `loss.py` from sibling modules
that are not part of this fragment, so `BboxLoss.forward` is parameterised
by them and the theorems quantify over their behaviour.
-/

open scoped BigOperators

noncomputable section

namespace YoloLoss

/-- One row of `wasserstein_loss`: the source slices the `(n, 4)` tensors
columnwise and combines them elementwise, so each output row depends only
on the corresponding rows of `pred` and `target`.  Mirrors the body of
`wasserstein_loss` in `loss.py`: `whs = center1 - center2`,
`center_distance = whs₀·whs₀ + whs₁·whs₁ + eps`, widths and heights get
`eps` added, `wh_distance = ((w1-w2)² + (h1-h2)²)/4`, and the result is
`exp(-sqrt(center_distance + wh_distance) / constant)`. -/
def wassersteinRow (p t : Fin 4 → ℝ) (eps constant : ℝ) : ℝ :=
  let whs0 : ℝ := p 0 - t 0
  let whs1 : ℝ := p 1 - t 1
  let center_distance : ℝ := whs0 * whs0 + whs1 * whs1 + eps
  let w1 : ℝ := p 2 + eps
  let h1 : ℝ := p 3 + eps
  let w2 : ℝ := t 2 + eps
  let h2 : ℝ := t 3 + eps
  let wh_distance : ℝ := ((w1 - w2) ^ 2 + (h1 - h2) ^ 2) / 4
  let wasserstein_2 : ℝ := center_distance + wh_distance
  Real.exp (-Real.sqrt wasserstein_2 / constant)

/-- Function `wasserstein_loss(pred, target, eps, constant)` from `loss.py`,
elementwise over the `n` rows of the `(n, 4)` inputs. -/
def wasserstein_loss {n : ℕ} (pred target : Fin n → Fin 4 → ℝ)
    (eps constant : ℝ) : Fin n → ℝ :=
  fun i => wassersteinRow (pred i) (target i) eps constant

/-- Default value of the `eps` argument of `wasserstein_loss`. -/
def wasserstein_eps_default : ℝ := 1e-7

/-- Default value of the `constant` argument of `wasserstein_loss`. -/
def wasserstein_constant_default : ℝ := 12.8

/-- The argument of the square root in `wassersteinRow`, as computed by the
source: squared center distance plus `eps`, plus a quarter of the squared
width/height differences (after `eps` is added to each width and height). -/
def wassersteinArg (p t : Fin 4 → ℝ) (eps : ℝ) : ℝ :=
  ((p 0 - t 0) * (p 0 - t 0) + (p 1 - t 1) * (p 1 - t 1) + eps) +
    (((p 2 + eps) - (t 2 + eps)) ^ 2 + ((p 3 + eps) - (t 3 + eps)) ^ 2) / 4

theorem wassersteinRow_eq_exp (p t : Fin 4 → ℝ) (eps constant : ℝ) :
    wassersteinRow p t eps constant =
      Real.exp (-Real.sqrt (wassersteinArg p t eps) / constant) := rfl

theorem wassersteinArg_eps_cancels (p t : Fin 4 → ℝ) (eps : ℝ) :
    wassersteinArg p t eps =
      ((p 0 - t 0) ^ 2 + (p 1 - t 1) ^ 2 + eps) +
        ((p 2 - t 2) ^ 2 + (p 3 - t 3) ^ 2) / 4 := by
  unfold wassersteinArg; ring

/-- C1: `wasserstein_loss` returns, elementwise over the rows, the value
`exp(-sqrt(((cx1-cx2)² + (cy1-cy2)² + eps) + ((w1-w2)² + (h1-h2)²)/4) / constant)`
(the `eps` added to each width and height cancels in the differences), and
the default arguments are `eps = 1e-7`, `constant = 12.8`. -/
theorem wasserstein_loss_spec {n : ℕ} (pred target : Fin n → Fin 4 → ℝ)
    (eps constant : ℝ) :
    (∀ i : Fin n,
        wasserstein_loss pred target eps constant i =
          Real.exp (-Real.sqrt
            (((pred i 0 - target i 0) ^ 2 + (pred i 1 - target i 1) ^ 2 + eps) +
              ((pred i 2 - target i 2) ^ 2 + (pred i 3 - target i 3) ^ 2) / 4) /
            constant)) ∧
      wasserstein_eps_default = 1e-7 ∧ wasserstein_constant_default = 12.8 := by
  refine ⟨fun i => ?_, rfl, rfl⟩
  rw [show wasserstein_loss pred target eps constant i =
        wassersteinRow (pred i) (target i) eps constant from rfl,
      wassersteinRow_eq_exp, wassersteinArg_eps_cancels]

theorem wassersteinArg_pos (p t : Fin 4 → ℝ) {eps : ℝ} (heps : 0 < eps) :
    0 < wassersteinArg p t eps := by
  rw [wassersteinArg_eps_cancels]
  have h0 : (0 : ℝ) ≤ (p 0 - t 0) ^ 2 := sq_nonneg _
  have h1 : (0 : ℝ) ≤ (p 1 - t 1) ^ 2 := sq_nonneg _
  have h2 : (0 : ℝ) ≤ (p 2 - t 2) ^ 2 := sq_nonneg _
  have h3 : (0 : ℝ) ≤ (p 3 - t 3) ^ 2 := sq_nonneg _
  nlinarith

/-- C8: for `eps > 0` and `constant > 0` every element of the result of
`wasserstein_loss` lies strictly between 0 and 1, and on identical boxes the
value is `exp(-sqrt(eps)/constant)`, which is strictly below 1: a perfect
prediction never attains similarity 1. -/
theorem wasserstein_loss_range {n : ℕ} (pred target : Fin n → Fin 4 → ℝ)
    {eps constant : ℝ} (heps : 0 < eps) (hc : 0 < constant) :
    (∀ i : Fin n,
        0 < wasserstein_loss pred target eps constant i ∧
          wasserstein_loss pred target eps constant i < 1) ∧
      (∀ i : Fin n,
        wasserstein_loss pred pred eps constant i =
          Real.exp (-Real.sqrt eps / constant) ∧
          Real.exp (-Real.sqrt eps / constant) < 1) := by
  have key : ∀ p t : Fin 4 → ℝ, wassersteinRow p t eps constant < 1 := by
    intro p t
    rw [wassersteinRow_eq_exp]
    rw [Real.exp_lt_one_iff]
    have hs : 0 < Real.sqrt (wassersteinArg p t eps) :=
      Real.sqrt_pos.mpr (wassersteinArg_pos p t heps)
    exact div_neg_of_neg_of_pos (neg_neg_of_pos hs) hc
  refine ⟨fun i => ⟨Real.exp_pos _, key _ _⟩, fun i => ⟨?_, ?_⟩⟩
  · rw [show wasserstein_loss pred pred eps constant i =
          wassersteinRow (pred i) (pred i) eps constant from rfl,
        wassersteinRow_eq_exp]
    have : wassersteinArg (pred i) (pred i) eps = eps := by
      rw [wassersteinArg_eps_cancels]; ring
    rw [this]
  · rw [Real.exp_lt_one_iff]
    have hs : 0 < Real.sqrt eps := Real.sqrt_pos.mpr heps
    exact div_neg_of_neg_of_pos (neg_neg_of_pos hs) hc

theorem wasserstein_loss_range_witness :
    (0 : ℝ) < 1 ∧ (0 : ℝ) < 2 ∧
      (∀ i : Fin 1,
          0 < wasserstein_loss (fun _ _ => (0 : ℝ)) (fun _ _ => 1) 1 2 i ∧
            wasserstein_loss (fun _ _ => (0 : ℝ)) (fun _ _ => 1) 1 2 i < 1) := by
  refine ⟨one_pos, two_pos, ?_⟩
  exact (wasserstein_loss_range (n := 1) (fun _ _ => 0) (fun _ _ => 1)
    one_pos two_pos).1

/-- C9: `wasserstein_loss` is symmetric in its two box arguments. -/
theorem wasserstein_loss_symm {n : ℕ} (pred target : Fin n → Fin 4 → ℝ)
    (eps constant : ℝ) :
    wasserstein_loss pred target eps constant =
      wasserstein_loss target pred eps constant := by
  funext i
  show wassersteinRow (pred i) (target i) eps constant =
    wassersteinRow (target i) (pred i) eps constant
  rw [wassersteinRow_eq_exp, wassersteinRow_eq_exp]
  have : wassersteinArg (pred i) (target i) eps =
      wassersteinArg (target i) (pred i) eps := by
    unfold wassersteinArg; ring
  rw [this]

/-- The logistic sigmoid, `torch.Tensor.sigmoid`. -/
def sigmoid (x : ℝ) : ℝ := 1 / (1 + Real.exp (-x))

/-- Binary cross-entropy with logits,
`F.binary_cross_entropy_with_logits(x, y, reduction="none")` at one
position: `-(y·log σ(x) + (1-y)·log(1-σ(x)))`. -/
def bce_with_logits (x y : ℝ) : ℝ :=
  -(y * Real.log (sigmoid x) + (1 - y) * Real.log (1 - sigmoid x))

namespace VarifocalLoss

/-- The elementwise weight computed by `VarifocalLoss.forward`:
`alpha * pred_score.sigmoid().pow(gamma) * (1 - label) + gt_score * label`. -/
def weight (alpha gamma p g l : ℝ) : ℝ :=
  alpha * sigmoid p ^ gamma * (1 - l) + g * l

/-- Method `VarifocalLoss.forward(pred_score, gt_score, label, alpha, gamma)` from
`loss.py`: the sum over all elements of the elementwise binary cross-entropy
with logits times the elementwise weight.  The `autocast` block and the
`.float()` casts only control numeric precision and are invisible in the
real-number model. -/
def forward {n : ℕ} (pred_score gt_score label : Fin n → ℝ)
    (alpha gamma : ℝ) : ℝ :=
  ∑ i, bce_with_logits (pred_score i) (gt_score i) *
    weight alpha gamma (pred_score i) (gt_score i) (label i)

/-- Default value of the `alpha` argument of `VarifocalLoss.forward`. -/
def alpha_default : ℝ := 0.75

/-- Default value of the `gamma` argument of `VarifocalLoss.forward`. -/
def gamma_default : ℝ := 2.0

end VarifocalLoss

/-- C3: for binary labels, `VarifocalLoss.forward` is the sum over all
elements of `weight * BCEWithLogits(pred_score, gt_score)` with
`weight = alpha * sigmoid(pred_score)^gamma * (1 - label) + gt_score * label`;
negative positions (`label = 0`) are weighted by
`alpha * sigmoid(pred_score)^gamma`, positive positions (`label = 1`) by
`gt_score`; the defaults are `alpha = 0.75`, `gamma = 2.0`. -/
theorem varifocal_forward_spec {n : ℕ} (pred_score gt_score label : Fin n → ℝ)
    (alpha gamma : ℝ) (hl : ∀ i, label i = 0 ∨ label i = 1) :
    VarifocalLoss.forward pred_score gt_score label alpha gamma =
      ∑ i, (alpha * sigmoid (pred_score i) ^ gamma * (1 - label i) +
              gt_score i * label i) *
        bce_with_logits (pred_score i) (gt_score i) ∧
      (∀ i, label i = 0 →
        VarifocalLoss.weight alpha gamma (pred_score i) (gt_score i) (label i) =
          alpha * sigmoid (pred_score i) ^ gamma) ∧
      (∀ i, label i = 1 →
        VarifocalLoss.weight alpha gamma (pred_score i) (gt_score i) (label i) =
          gt_score i) ∧
      VarifocalLoss.alpha_default = 0.75 ∧ VarifocalLoss.gamma_default = 2.0 := by
  refine ⟨?_, fun i h => ?_, fun i h => ?_, rfl, rfl⟩
  · unfold VarifocalLoss.forward VarifocalLoss.weight
    exact Finset.sum_congr rfl fun i _ => mul_comm _ _
  · unfold VarifocalLoss.weight; rw [h]; ring
  · unfold VarifocalLoss.weight; rw [h]; ring

theorem varifocal_forward_spec_witness :
    (∀ i : Fin 2, ((fun j : Fin 2 => (j : ℝ)) i = 0 ∨ (fun j : Fin 2 => (j : ℝ)) i = 1)) ∧
      (VarifocalLoss.forward (n := 2) (fun _ => 0) (fun _ => 1)
          (fun j => (j : ℝ)) 1 1 =
        ∑ i : Fin 2, (1 * sigmoid ((fun _ => (0 : ℝ)) i) ^ (1 : ℝ) *
              (1 - (fun j : Fin 2 => (j : ℝ)) i) +
            (fun _ => (1 : ℝ)) i * (fun j : Fin 2 => (j : ℝ)) i) *
          bce_with_logits ((fun _ => (0 : ℝ)) i) ((fun _ => (1 : ℝ)) i)) := by
  have hl : ∀ i : Fin 2, ((fun j : Fin 2 => (j : ℝ)) i = 0 ∨ (fun j : Fin 2 => (j : ℝ)) i = 1) := by
    intro i; fin_cases i
    · left; norm_num
    · right; norm_num
  exact ⟨hl, (varifocal_forward_spec (fun _ => 0) (fun _ => 1)
    (fun j => (j : ℝ)) 1 1 hl).1⟩

/-- Truncation toward zero, `torch.Tensor.long()` on a float value. -/
def longTrunc (x : ℝ) : ℤ := if 0 ≤ x then ⌊x⌋ else ⌈x⌉

/-- Softmax cross-entropy `F.cross_entropy(logits, idx, reduction="none")`
at one position: the
softmax cross-entropy `log (∑ j, exp lⱼ) - l_idx` over the `r + 1` discrete
bins.  An out-of-range index raises in torch; the model leaves the picked
logit at `0` there, and every theorem below only evaluates it in range. -/
def crossEntropy {r : ℕ} (logits : Fin (r + 1) → ℝ) (idx : ℤ) : ℝ :=
  Real.log (∑ j, Real.exp (logits j)) -
    (if h : 0 ≤ idx ∧ idx.toNat < r + 1 then logits ⟨idx.toNat, h.2⟩ else 0)

/-- Configuration of a `BboxLoss` module, set by `__init__`. -/
structure BboxLoss where
  reg_max : ℕ
  use_dfl : Bool

namespace BboxLoss

/-- One row of `BboxLoss._df_loss`: `tl = target.long()`, `tr = tl + 1`,
`wl = tr - target`, `wr = 1 - wl`, and the row value is the mean over the
last dimension (`c` positions) of
`cross_entropy(pred, tl) * wl + cross_entropy(pred, tr) * wr`. -/
def dfRow {c r : ℕ} (pred_dist : Fin c → Fin (r + 1) → ℝ)
    (target : Fin c → ℝ) : ℝ :=
  (∑ j,
    (let tl : ℤ := longTrunc (target j)
     let tr : ℤ := tl + 1
     let wl : ℝ := (tr : ℝ) - target j
     let wr : ℝ := 1 - wl
     crossEntropy (pred_dist j) tl * wl + crossEntropy (pred_dist j) tr * wr)) /
    (c : ℝ)

/-- Static method `BboxLoss._df_loss(pred_dist, target)` from `loss.py`.  The source
flattens `target` of shape `(k, c)` to index a `(k*c, r+1)` logits tensor
and reshapes back; here the logits tensor is addressed directly as
`(k, c, r+1)`, and the result keeps one value per row (`mean(-1,
keepdim=True)` becomes a `Fin k → ℝ` function). -/
def _df_loss {k c r : ℕ} (pred_dist : Fin k → Fin c → Fin (r + 1) → ℝ)
    (target : Fin k → Fin c → ℝ) : Fin k → ℝ :=
  fun i => dfRow (pred_dist i) (target i)

end BboxLoss

/-- The tensor arguments of `BboxLoss.forward`: `n` anchors, `c` classes,
distributions over `r + 1` bins for each of the 4 box edges. -/
structure BboxArgs (n c r : ℕ) where
  pred_dist : Fin n → Fin 4 → Fin (r + 1) → ℝ
  pred_bboxes : Fin n → Fin 4 → ℝ
  anchor_points : Fin n → Fin 2 → ℝ
  target_bboxes : Fin n → Fin 4 → ℝ
  target_scores : Fin n → Fin c → ℝ
  target_scores_sum : ℝ
  fg_mask : Fin n → Bool

/-- Method `BboxLoss.forward` from `loss.py`.  `bboxIou` stands for
`bbox_iou(·, ·, xywh=False, CIoU=True)` and `b2dist` for
`bbox2dist(anchor_points, target_bboxes, reg_max)`, both imported from
sibling modules outside this fragment, applied rowwise; the theorems
quantify over them.  `masked_select`/boolean indexing followed by `.sum()`
becomes a sum over the `Finset` of rows where `fg_mask` holds. -/
def BboxLoss.forward {n c : ℕ} (m : BboxLoss)
    (bboxIou : (Fin 4 → ℝ) → (Fin 4 → ℝ) → ℝ)
    (b2dist : (Fin 2 → ℝ) → (Fin 4 → ℝ) → ℕ → Fin 4 → ℝ)
    (a : BboxArgs n c m.reg_max) : ℝ × ℝ :=
  let weight : Fin n → ℝ := fun i => ∑ j, a.target_scores i j
  let fg : Finset (Fin n) := Finset.univ.filter (fun i => a.fg_mask i = true)
  let iou : Fin n → ℝ := fun i => bboxIou (a.pred_bboxes i) (a.target_bboxes i)
  let loss_iou : ℝ :=
    (∑ i ∈ fg, (1 - iou i) * weight i) / a.target_scores_sum
  let loss_dfl : ℝ :=
    if m.use_dfl then
      let target_ltrb : Fin n → Fin 4 → ℝ :=
        fun i => b2dist (a.anchor_points i) (a.target_bboxes i) m.reg_max
      (∑ i ∈ fg, BboxLoss._df_loss a.pred_dist target_ltrb i * weight i) /
        a.target_scores_sum
    else 0
  (loss_iou, loss_dfl)

/-- Explicit-state version of `BboxLoss.forward`: the Python method assigns
no attribute of `self` and applies no in-place tensor operation, so the
state-passing embedding threads the module and the argument tensors through
unchanged alongside the two returned losses. -/
def BboxLoss.forwardS {n c : ℕ} (m : BboxLoss)
    (bboxIou : (Fin 4 → ℝ) → (Fin 4 → ℝ) → ℝ)
    (b2dist : (Fin 2 → ℝ) → (Fin 4 → ℝ) → ℕ → Fin 4 → ℝ)
    (a : BboxArgs n c m.reg_max) :
    BboxLoss × BboxArgs n c m.reg_max × (ℝ × ℝ) :=
  (m, a, BboxLoss.forward m bboxIou b2dist a)

/-- C2: `BboxLoss._df_loss` returns, per row, the mean over the last
dimension of `wl * CE(pred_dist, tl) + wr * CE(pred_dist, tr)` with
`tl = ⌊target⌋`, `tr = tl + 1`, `wl = tr - target`, `wr = target - tl`
(so `wl + wr = 1` at every position), where `CE` is the softmax
cross-entropy over the `reg_max + 1` bins; `target` is elementwise
non-negative, so `.long()` truncation agrees with the floor. -/
theorem df_loss_spec {k c r : ℕ} (pred_dist : Fin k → Fin c → Fin (r + 1) → ℝ)
    (target : Fin k → Fin c → ℝ) (h : ∀ i j, 0 ≤ target i j) :
    (∀ i, BboxLoss._df_loss pred_dist target i =
      (∑ j,
        (((⌊target i j⌋ : ℝ) + 1 - target i j) *
            crossEntropy (pred_dist i j) ⌊target i j⌋ +
          (target i j - (⌊target i j⌋ : ℝ)) *
            crossEntropy (pred_dist i j) (⌊target i j⌋ + 1))) / (c : ℝ)) ∧
      (∀ i j, ((⌊target i j⌋ : ℝ) + 1 - target i j) +
        (target i j - (⌊target i j⌋ : ℝ)) = 1) := by
  refine ⟨fun i => ?_, fun i j => by ring⟩
  show BboxLoss.dfRow (pred_dist i) (target i) = _
  unfold BboxLoss.dfRow
  congr 1
  refine Finset.sum_congr rfl fun j _ => ?_
  have ht : longTrunc (target i j) = ⌊target i j⌋ := if_pos (h i j)
  simp only [ht]
  push_cast
  ring

/-- Concrete logits tensor used to instantiate `df_loss_spec`. -/
def dfPredSample : Fin 1 → Fin 1 → Fin 2 → ℝ := fun _ _ _ => 0

/-- Concrete target tensor used to instantiate `df_loss_spec`. -/
def dfTargetSample : Fin 1 → Fin 1 → ℝ := fun _ _ => 1 / 2

theorem df_loss_spec_witness :
    (∀ i j : Fin 1, (0 : ℝ) ≤ dfTargetSample i j) ∧
      ((∀ i : Fin 1,
          BboxLoss._df_loss dfPredSample dfTargetSample i =
            (∑ j : Fin 1,
              (((⌊dfTargetSample i j⌋ : ℝ) + 1 - dfTargetSample i j) *
                  crossEntropy (dfPredSample i j) ⌊dfTargetSample i j⌋ +
                (dfTargetSample i j - (⌊dfTargetSample i j⌋ : ℝ)) *
                  crossEntropy (dfPredSample i j)
                    (⌊dfTargetSample i j⌋ + 1))) / ((1 : ℕ) : ℝ)) ∧
        (∀ i j : Fin 1,
          ((⌊dfTargetSample i j⌋ : ℝ) + 1 - dfTargetSample i j) +
            (dfTargetSample i j - (⌊dfTargetSample i j⌋ : ℝ)) = 1)) :=
  ⟨fun _ _ => by norm_num [dfTargetSample],
    df_loss_spec dfPredSample dfTargetSample
      (fun _ _ => by norm_num [dfTargetSample])⟩

/-- C4: the first value returned by `BboxLoss.forward` is the sum, over the
positions where `fg_mask` is true, of `(1 - bboxIou(pred_bbox, target_bbox))`
times the weight (the last-dimension sum of `target_scores` at that
position), divided by `target_scores_sum`. -/
theorem bbox_forward_iou_spec {n c : ℕ} (m : BboxLoss)
    (bboxIou : (Fin 4 → ℝ) → (Fin 4 → ℝ) → ℝ)
    (b2dist : (Fin 2 → ℝ) → (Fin 4 → ℝ) → ℕ → Fin 4 → ℝ)
    (a : BboxArgs n c m.reg_max) :
    (BboxLoss.forward m bboxIou b2dist a).1 =
      (∑ i, if a.fg_mask i then
          (1 - bboxIou (a.pred_bboxes i) (a.target_bboxes i)) *
            (∑ j, a.target_scores i j)
        else 0) / a.target_scores_sum := by
  show (∑ i ∈ Finset.univ.filter (fun i => a.fg_mask i = true),
      (1 - bboxIou (a.pred_bboxes i) (a.target_bboxes i)) *
        (∑ j, a.target_scores i j)) / a.target_scores_sum = _
  rw [Finset.sum_filter]

/-- C10: on a module with `use_dfl = false`, the second value returned by
`BboxLoss.forward` is `0`, whatever the tensor arguments are. -/
theorem bbox_forward_dfl_zero {n c : ℕ} (m : BboxLoss)
    (bboxIou : (Fin 4 → ℝ) → (Fin 4 → ℝ) → ℝ)
    (b2dist : (Fin 2 → ℝ) → (Fin 4 → ℝ) → ℕ → Fin 4 → ℝ)
    (a : BboxArgs n c m.reg_max) (hdfl : m.use_dfl = false) :
    (BboxLoss.forward m bboxIou b2dist a).2 = 0 := by
  simp [BboxLoss.forward, hdfl]

theorem bbox_forward_dfl_zero_witness :
    (BboxLoss.mk 0 false).use_dfl = false ∧
      (BboxLoss.forward (BboxLoss.mk 0 false) (fun _ _ => 0)
          (fun _ _ _ _ => 0)
          (BboxArgs.mk (n := 1) (c := 1) (fun _ _ _ => 0) (fun _ _ => 0)
            (fun _ _ => 0) (fun _ _ => 0) (fun _ _ => 0) 1
            (fun _ => true))).2 = 0 :=
  ⟨rfl, bbox_forward_dfl_zero (BboxLoss.mk 0 false) (fun _ _ => 0)
    (fun _ _ _ _ => 0)
    (BboxArgs.mk (fun _ _ _ => 0) (fun _ _ => 0) (fun _ _ => 0)
      (fun _ _ => 0) (fun _ _ => 0) 1 (fun _ => true)) rfl⟩

/-- C6: `BboxLoss.forward` mutates nothing: in the explicit-state embedding
the module comes back with its constructed `reg_max` and `use_dfl`, every
argument tensor comes back unchanged, and the two losses are the pure
`forward` values. -/
theorem bbox_forward_frame {n c : ℕ} (m : BboxLoss)
    (bboxIou : (Fin 4 → ℝ) → (Fin 4 → ℝ) → ℝ)
    (b2dist : (Fin 2 → ℝ) → (Fin 4 → ℝ) → ℕ → Fin 4 → ℝ)
    (a : BboxArgs n c m.reg_max) :
    (BboxLoss.forwardS m bboxIou b2dist a).1.reg_max = m.reg_max ∧
      (BboxLoss.forwardS m bboxIou b2dist a).1.use_dfl = m.use_dfl ∧
      (BboxLoss.forwardS m bboxIou b2dist a).2.1 = a ∧
      (BboxLoss.forwardS m bboxIou b2dist a).2.2 =
        BboxLoss.forward m bboxIou b2dist a :=
  ⟨rfl, rfl, rfl, rfl⟩

/-- C5: every loss operation of the fragment is deterministic: equal input
tensors (and equal `bbox_iou`/`bbox2dist` behaviour) give equal results,
and a module's configuration `(reg_max, use_dfl)` determines the module, so
calls on equally configured modules agree. -/
theorem losses_deterministic {n k c r : ℕ}
    (p₁ p₂ t₁ t₂ : Fin n → Fin 4 → ℝ) (e₁ e₂ q₁ q₂ : ℝ)
    (ps₁ ps₂ gs₁ gs₂ l₁ l₂ : Fin n → ℝ) (α₁ α₂ γ₁ γ₂ : ℝ)
    (m : BboxLoss)
    (f₁ f₂ : (Fin 4 → ℝ) → (Fin 4 → ℝ) → ℝ)
    (g₁ g₂ : (Fin 2 → ℝ) → (Fin 4 → ℝ) → ℕ → Fin 4 → ℝ)
    (a₁ a₂ : BboxArgs n c m.reg_max)
    (d₁ d₂ : Fin k → Fin c → Fin (r + 1) → ℝ) (u₁ u₂ : Fin k → Fin c → ℝ)
    (hp : p₁ = p₂) (ht : t₁ = t₂) (he : e₁ = e₂) (hq : q₁ = q₂)
    (hps : ps₁ = ps₂) (hgs : gs₁ = gs₂) (hl : l₁ = l₂)
    (hα : α₁ = α₂) (hγ : γ₁ = γ₂)
    (hf : f₁ = f₂) (hg : g₁ = g₂) (ha : a₁ = a₂)
    (hd : d₁ = d₂) (hu : u₁ = u₂) :
    wasserstein_loss p₁ t₁ e₁ q₁ = wasserstein_loss p₂ t₂ e₂ q₂ ∧
      VarifocalLoss.forward ps₁ gs₁ l₁ α₁ γ₁ =
        VarifocalLoss.forward ps₂ gs₂ l₂ α₂ γ₂ ∧
      BboxLoss.forward m f₁ g₁ a₁ = BboxLoss.forward m f₂ g₂ a₂ ∧
      BboxLoss._df_loss d₁ u₁ = BboxLoss._df_loss d₂ u₂ ∧
      (∀ m₁ m₂ : BboxLoss, m₁.reg_max = m₂.reg_max →
        m₁.use_dfl = m₂.use_dfl → m₁ = m₂) := by
  subst hp ht he hq hps hgs hl hα hγ hf hg ha hd hu
  refine ⟨rfl, rfl, rfl, rfl, fun m₁ m₂ h₁ h₂ => ?_⟩
  cases m₁; cases m₂; cases h₁; cases h₂; rfl

theorem losses_deterministic_witness :
    wasserstein_loss (n := 1) (fun _ _ => 0) (fun _ _ => 1) 1 2 =
        wasserstein_loss (n := 1) (fun _ _ => 0) (fun _ _ => 1) 1 2 ∧
      VarifocalLoss.forward (n := 1) (fun _ => 0) (fun _ => 1) (fun _ => 1) 1 2 =
        VarifocalLoss.forward (n := 1) (fun _ => 0) (fun _ => 1) (fun _ => 1) 1 2 ∧
      BboxLoss.forward (BboxLoss.mk 0 false) (fun _ _ => 0) (fun _ _ _ _ => 0)
          (BboxArgs.mk (n := 1) (c := 1) (fun _ _ _ => 0) (fun _ _ => 0)
            (fun _ _ => 0) (fun _ _ => 0) (fun _ _ => 0) 1 (fun _ => true)) =
        BboxLoss.forward (BboxLoss.mk 0 false) (fun _ _ => 0) (fun _ _ _ _ => 0)
          (BboxArgs.mk (n := 1) (c := 1) (fun _ _ _ => 0) (fun _ _ => 0)
            (fun _ _ => 0) (fun _ _ => 0) (fun _ _ => 0) 1 (fun _ => true)) ∧
      BboxLoss._df_loss dfPredSample dfTargetSample =
        BboxLoss._df_loss dfPredSample dfTargetSample ∧
      (∀ m₁ m₂ : BboxLoss, m₁.reg_max = m₂.reg_max →
        m₁.use_dfl = m₂.use_dfl → m₁ = m₂) :=
  losses_deterministic (fun _ _ => 0) (fun _ _ => 0) (fun _ _ => 1)
    (fun _ _ => 1) 1 1 2 2 (fun _ => 0) (fun _ => 0) (fun _ => 1) (fun _ => 1)
    (fun _ => 1) (fun _ => 1) 1 1 2 2 (BboxLoss.mk 0 false)
    (fun _ _ => 0) (fun _ _ => 0) (fun _ _ _ _ => 0) (fun _ _ _ _ => 0)
    (BboxArgs.mk (fun _ _ _ => 0) (fun _ _ => 0) (fun _ _ => 0)
      (fun _ _ => 0) (fun _ _ => 0) 1 (fun _ => true))
    (BboxArgs.mk (fun _ _ _ => 0) (fun _ _ => 0) (fun _ _ => 0)
      (fun _ _ => 0) (fun _ _ => 0) 1 (fun _ => true))
    dfPredSample dfPredSample dfTargetSample dfTargetSample
    rfl rfl rfl rfl rfl rfl rfl rfl rfl rfl rfl rfl rfl rfl

theorem sigmoid_pos (x : ℝ) : 0 < sigmoid x := by
  unfold sigmoid; positivity

theorem sigmoid_lt_one (x : ℝ) : sigmoid x < 1 := by
  unfold sigmoid
  rw [div_lt_one (by positivity)]
  linarith [Real.exp_pos (-x)]

theorem differentiable_sigmoid : Differentiable ℝ sigmoid := by
  have hden : Differentiable ℝ (fun x : ℝ => 1 + Real.exp (-x)) :=
    (differentiable_const 1).add (Real.differentiable_exp.comp differentiable_neg)
  have hne : ∀ x : ℝ, 1 + Real.exp (-x) ≠ 0 := fun x => by positivity
  exact (differentiable_const 1).div hden hne

theorem differentiable_bce (y : ℝ) :
    Differentiable ℝ (fun x => bce_with_logits x y) := by
  have h1 : Differentiable ℝ (fun x => Real.log (sigmoid x)) :=
    Differentiable.log differentiable_sigmoid fun x => (sigmoid_pos x).ne'
  have h2 : Differentiable ℝ (fun x => Real.log (1 - sigmoid x)) :=
    Differentiable.log ((differentiable_const 1).sub differentiable_sigmoid)
      fun x => (sub_pos.mpr (sigmoid_lt_one x)).ne'
  exact (((differentiable_const y).mul h1).add
    ((differentiable_const (1 - y)).mul h2)).neg

theorem differentiable_vfl_weight (alpha gamma g l : ℝ) :
    Differentiable ℝ (fun x => VarifocalLoss.weight alpha gamma x g l) := by
  have hr : Differentiable ℝ (fun x => sigmoid x ^ gamma) := fun x =>
    (Real.differentiableAt_rpow_const_of_ne gamma
      (sigmoid_pos x).ne').comp x (differentiable_sigmoid x)
  exact ((((differentiable_const alpha).mul hr).mul_const (1 - l)).add_const
    (g * l))

theorem sum_exp_pos {r : ℕ} (L : Fin (r + 1) → ℝ) :
    0 < ∑ j, Real.exp (L j) :=
  Finset.sum_pos (fun j _ => Real.exp_pos _) Finset.univ_nonempty

theorem differentiable_crossEntropy {r : ℕ} (idx : ℤ) :
    Differentiable ℝ (fun L : Fin (r + 1) → ℝ => crossEntropy L idx) := by
  have hs : Differentiable ℝ (fun L : Fin (r + 1) → ℝ => ∑ j, Real.exp (L j)) :=
    Differentiable.sum fun j _ =>
      Real.differentiable_exp.comp (differentiable_apply (𝕜 := ℝ) j)
  have hlog : Differentiable ℝ
      (fun L : Fin (r + 1) → ℝ => Real.log (∑ j, Real.exp (L j))) :=
    Differentiable.log hs fun L => (sum_exp_pos L).ne'
  have hpick : Differentiable ℝ (fun L : Fin (r + 1) → ℝ =>
      if h : 0 ≤ idx ∧ idx.toNat < r + 1 then L ⟨idx.toNat, h.2⟩ else 0) := by
    by_cases hP : 0 ≤ idx ∧ idx.toNat < r + 1
    · simp only [dif_pos hP]; exact differentiable_apply (𝕜 := ℝ) _
    · simp only [dif_neg hP]; exact differentiable_const 0
  exact hlog.sub hpick

theorem differentiable_dfRow {c r : ℕ} (t : Fin c → ℝ) :
    Differentiable ℝ (fun P : Fin c → Fin (r + 1) → ℝ => BboxLoss.dfRow P t) := by
  have hsum : Differentiable ℝ (fun P : Fin c → Fin (r + 1) → ℝ =>
      ∑ j, (crossEntropy (P j) (longTrunc (t j)) *
          (((longTrunc (t j) + 1 : ℤ) : ℝ) - t j) +
        crossEntropy (P j) (longTrunc (t j) + 1) *
          (1 - (((longTrunc (t j) + 1 : ℤ) : ℝ) - t j)))) := by
    refine Differentiable.sum fun j _ => ?_
    exact (((differentiable_crossEntropy _).comp
        (differentiable_apply (𝕜 := ℝ) j)).mul_const _).add
      (((differentiable_crossEntropy _).comp
        (differentiable_apply (𝕜 := ℝ) j)).mul_const _)
  have h2 := hsum.mul_const ((c : ℝ))⁻¹
  have h3 : (fun P : Fin c → Fin (r + 1) → ℝ => BboxLoss.dfRow P t) =
      (fun P : Fin c → Fin (r + 1) → ℝ =>
        (∑ j, (crossEntropy (P j) (longTrunc (t j)) *
            (((longTrunc (t j) + 1 : ℤ) : ℝ) - t j) +
          crossEntropy (P j) (longTrunc (t j) + 1) *
            (1 - (((longTrunc (t j) + 1 : ℤ) : ℝ) - t j)))) * ((c : ℝ))⁻¹) := by
    funext P
    unfold BboxLoss.dfRow
    rw [div_eq_mul_inv]
  rw [h3]
  exact h2

theorem differentiable_wassersteinRow (t : Fin 4 → ℝ) {eps : ℝ}
    (constant : ℝ) (heps : 0 < eps) :
    Differentiable ℝ (fun p : Fin 4 → ℝ => wassersteinRow p t eps constant) := by
  have hA : Differentiable ℝ (fun p : Fin 4 → ℝ => wassersteinArg p t eps) := by
    unfold wassersteinArg; fun_prop
  intro p
  have h1 : DifferentiableAt ℝ (fun q : Fin 4 → ℝ =>
      Real.sqrt (wassersteinArg q t eps)) p :=
    (hA p).sqrt (wassersteinArg_pos p t heps).ne'
  have h2 : DifferentiableAt ℝ (fun q : Fin 4 → ℝ =>
      -Real.sqrt (wassersteinArg q t eps) / constant) p := by
    simp only [div_eq_mul_inv]
    exact h1.neg.mul_const constant⁻¹
  exact h2.exp

/-- C7: each loss term is differentiable in the predictions: for `eps > 0`
every element of `wasserstein_loss` is differentiable in the full `pred`
tensor (the argument of the square root is at least `eps > 0`);
`VarifocalLoss.forward` is differentiable in `pred_score`; the IoU term of
`BboxLoss.forward` is differentiable in `pred_bboxes` whenever the external
`bbox_iou` is differentiable in its first argument; and the DFL term is
differentiable in `pred_dist`. -/
theorem losses_differentiable {n c : ℕ} (target : Fin n → Fin 4 → ℝ)
    {eps : ℝ} (constant : ℝ) (heps : 0 < eps)
    (gt_score label : Fin n → ℝ) (alpha gamma : ℝ) (m : BboxLoss)
    (bboxIou : (Fin 4 → ℝ) → (Fin 4 → ℝ) → ℝ)
    (b2dist : (Fin 2 → ℝ) → (Fin 4 → ℝ) → ℕ → Fin 4 → ℝ)
    (a : BboxArgs n c m.reg_max) :
    (∀ i : Fin n, Differentiable ℝ (fun pred : Fin n → Fin 4 → ℝ =>
        wasserstein_loss pred target eps constant i)) ∧
      Differentiable ℝ (fun ps : Fin n → ℝ =>
        VarifocalLoss.forward ps gt_score label alpha gamma) ∧
      ((∀ t, Differentiable ℝ (fun p => bboxIou p t)) →
        Differentiable ℝ (fun pb : Fin n → Fin 4 → ℝ =>
          (BboxLoss.forward m bboxIou b2dist
            (BboxArgs.mk a.pred_dist pb a.anchor_points a.target_bboxes
              a.target_scores a.target_scores_sum a.fg_mask)).1)) ∧
      Differentiable ℝ (fun pd : Fin n → Fin 4 → Fin (m.reg_max + 1) → ℝ =>
        (BboxLoss.forward m bboxIou b2dist
          (BboxArgs.mk pd a.pred_bboxes a.anchor_points a.target_bboxes
            a.target_scores a.target_scores_sum a.fg_mask)).2) := by
  refine ⟨fun i => ?_, ?_, fun hiou => ?_, ?_⟩
  · exact (differentiable_wassersteinRow (target i) constant heps).comp
      (differentiable_apply (𝕜 := ℝ) i)
  · unfold VarifocalLoss.forward
    refine Differentiable.sum fun i _ => ?_
    exact ((differentiable_bce (gt_score i)).mul
      (differentiable_vfl_weight alpha gamma (gt_score i) (label i))).comp
      (differentiable_apply (𝕜 := ℝ) i)
  · have hsum : Differentiable ℝ (fun pb : Fin n → Fin 4 → ℝ =>
        ∑ i ∈ Finset.univ.filter (fun i => a.fg_mask i = true),
          (1 - bboxIou (pb i) (a.target_bboxes i)) * ∑ j, a.target_scores i j) := by
      refine Differentiable.sum fun i _ => ?_
      exact (((hiou (a.target_bboxes i)).comp
        (differentiable_apply (𝕜 := ℝ) i)).const_sub 1).mul_const _
    have h2 := hsum.mul_const (a.target_scores_sum)⁻¹
    have h3 : (fun pb : Fin n → Fin 4 → ℝ =>
        (BboxLoss.forward m bboxIou b2dist
          (BboxArgs.mk a.pred_dist pb a.anchor_points a.target_bboxes
            a.target_scores a.target_scores_sum a.fg_mask)).1) =
        (fun pb : Fin n → Fin 4 → ℝ =>
          (∑ i ∈ Finset.univ.filter (fun i => a.fg_mask i = true),
            (1 - bboxIou (pb i) (a.target_bboxes i)) *
              ∑ j, a.target_scores i j) * (a.target_scores_sum)⁻¹) := by
      funext pb
      show (∑ i ∈ Finset.univ.filter (fun i => a.fg_mask i = true),
          (1 - bboxIou (pb i) (a.target_bboxes i)) *
            ∑ j, a.target_scores i j) / a.target_scores_sum = _
      rw [div_eq_mul_inv]
    rw [h3]
    exact h2
  · cases hd : m.use_dfl with
    | false =>
      have hz : ∀ pd : Fin n → Fin 4 → Fin (m.reg_max + 1) → ℝ,
          (BboxLoss.forward m bboxIou b2dist
            (BboxArgs.mk pd a.pred_bboxes a.anchor_points a.target_bboxes
              a.target_scores a.target_scores_sum a.fg_mask)).2 = 0 := by
        intro pd; simp [BboxLoss.forward, hd]
      simp only [hz]
      exact differentiable_const 0
    | true =>
      have hsum : Differentiable ℝ
          (fun pd : Fin n → Fin 4 → Fin (m.reg_max + 1) → ℝ =>
            ∑ i ∈ Finset.univ.filter (fun i => a.fg_mask i = true),
              BboxLoss.dfRow (pd i)
                (fun e => b2dist (a.anchor_points i) (a.target_bboxes i)
                  m.reg_max e) * ∑ j, a.target_scores i j) := by
        refine Differentiable.sum fun i _ => ?_
        exact ((differentiable_dfRow _).comp
          (differentiable_apply (𝕜 := ℝ) i)).mul_const _
      have h2 := hsum.mul_const (a.target_scores_sum)⁻¹
      have h3 : (fun pd : Fin n → Fin 4 → Fin (m.reg_max + 1) → ℝ =>
          (BboxLoss.forward m bboxIou b2dist
            (BboxArgs.mk pd a.pred_bboxes a.anchor_points a.target_bboxes
              a.target_scores a.target_scores_sum a.fg_mask)).2) =
          (fun pd : Fin n → Fin 4 → Fin (m.reg_max + 1) → ℝ =>
            (∑ i ∈ Finset.univ.filter (fun i => a.fg_mask i = true),
              BboxLoss.dfRow (pd i)
                (fun e => b2dist (a.anchor_points i) (a.target_bboxes i)
                  m.reg_max e) * ∑ j, a.target_scores i j) *
              (a.target_scores_sum)⁻¹) := by
        funext pd
        simp [BboxLoss.forward, hd, BboxLoss._df_loss, div_eq_mul_inv]
      rw [h3]
      exact h2

/-- Concrete module used to instantiate `losses_differentiable`. -/
def mSample : BboxLoss := BboxLoss.mk 0 true

/-- Concrete argument bundle used to instantiate `losses_differentiable`. -/
def aSample : BboxArgs 1 1 0 :=
  BboxArgs.mk (fun _ _ _ => 0) (fun _ _ => 0) (fun _ _ => 0) (fun _ _ => 0)
    (fun _ _ => 0) 1 (fun _ => true)

theorem losses_differentiable_witness :
    (0 : ℝ) < 1 ∧
      ((∀ i : Fin 1, Differentiable ℝ (fun pred : Fin 1 → Fin 4 → ℝ =>
          wasserstein_loss pred (fun _ _ => 0) 1 1 i)) ∧
        Differentiable ℝ (fun ps : Fin 1 → ℝ =>
          VarifocalLoss.forward ps (fun _ => 0) (fun _ => 0) 1 1) ∧
        ((∀ t : Fin 4 → ℝ, Differentiable ℝ (fun p : Fin 4 → ℝ => (0 : ℝ))) →
          Differentiable ℝ (fun pb : Fin 1 → Fin 4 → ℝ =>
            (BboxLoss.forward mSample (fun _ _ => 0) (fun _ _ _ _ => 0)
              (BboxArgs.mk aSample.pred_dist pb aSample.anchor_points
                aSample.target_bboxes aSample.target_scores
                aSample.target_scores_sum aSample.fg_mask)).1)) ∧
        Differentiable ℝ
          (fun pd : Fin 1 → Fin 4 → Fin (mSample.reg_max + 1) → ℝ =>
            (BboxLoss.forward mSample (fun _ _ => 0) (fun _ _ _ _ => 0)
              (BboxArgs.mk pd aSample.pred_bboxes aSample.anchor_points
                aSample.target_bboxes aSample.target_scores
                aSample.target_scores_sum aSample.fg_mask)).2)) :=
  ⟨one_pos, losses_differentiable (fun _ _ => 0) 1 one_pos (fun _ => 0)
    (fun _ => 0) 1 1 mSample (fun _ _ => 0) (fun _ _ _ _ => 0) aSample⟩

end YoloLoss

end
